import Mathlib

/-!
Verification of the code-versioning, caching and block-extraction core of
AutoPyTabs (src/auto_pytabs/core.py, src/auto_pytabs/markdown_ext.py,
src/auto_pytabs/sphinx_ext.py, src/auto_pytabs/util.py, src/auto_pytabs.py).

Shallow embedding conventions:
- Python strings are embedded as `List Char`; the empty string is `[]`
  (which is also Python-falsy), and string operations that the source uses
  (`split`, `join`, `removeprefix`, `lstrip`, `strip`, slicing) are defined
  below on `List Char`, splitting on the newline character.
- Python `dict` values (which preserve insertion order) are embedded as
  association lists with unique keys; `dictInsert` mirrors `d[k] = v`
  (update in place, keep position) and `dictLookup` mirrors `d.get(k)`.
- The external source rewriting collaborator (`_run_ruff`, respectively
  `pyupgrade._fix_plugins` and `autoflake.fix_code` in the historical
  single-file module) is opaque; functions that call it take it as an
  explicit function parameter.
- Fallible Python code (exceptions, IndexError, KeyError) is embedded with
  `Option` or `Except`.
-/

namespace AutoPyTabs

/-- Version is the VersionTuple (major, minor) of src/auto_pytabs/core.py
and src/auto_pytabs/types.py; the spec constrains both components to be
non-negative, so each component is a natural number. -/
abbrev Version : Type := Nat × Nat

/-- Strict lexicographic order on versions: the order in which the
Cartesian-product range walk emits them. -/
def vlt (a b : Version) : Prop :=
  a.1 < b.1 ∨ (a.1 = b.1 ∧ a.2 < b.2)

instance : DecidableRel vlt := by
  intro a b
  unfold vlt
  infer_instance

theorem vlt_irrefl (a : Version) : ¬ vlt a a := by
  simp [vlt]

/-- Embedding of Python `d[k] = v` on an insertion-ordered dict: if the key
is present its value is updated in place, otherwise the pair is appended. -/
def dictInsert {α β : Type} [DecidableEq α] (k : α) (v : β) :
    List (α × β) → List (α × β)
  | [] => [(k, v)]
  | (k0, v0) :: t => if k0 = k then (k, v) :: t else (k0, v0) :: dictInsert k v t

/-- Embedding of Python `d.get(k)` on an insertion-ordered dict. -/
def dictLookup {α β : Type} [DecidableEq α] (k : α) :
    List (α × β) → Option β
  | [] => none
  | (k0, v) :: t => if k0 = k then some v else dictLookup k t

/-- Embeds get_version_requirements of src/auto_pytabs/core.py (the
identical function also appears in src/auto_pytabs/util.py):
list comprehension over range(min_major, max_major + 1) as the outer loop
and range(min_minor, max_minor + 1) as the inner loop. -/
def get_version_requirements (min_version max_version : Version) :
    List Version :=
  (List.range' min_version.1 (max_version.1 + 1 - min_version.1)).flatMap
    (fun major =>
      (List.range' min_version.2 (max_version.2 + 1 - min_version.2)).map
        (fun minor => (major, minor)))

lemma mem_get_version_requirements (mn mx : Version) (p : Version) :
    p ∈ get_version_requirements mn mx ↔
      (mn.1 ≤ p.1 ∧ p.1 ≤ mx.1 ∧ mn.2 ≤ p.2 ∧ p.2 ≤ mx.2) := by
  obtain ⟨p1, p2⟩ := p
  unfold get_version_requirements
  simp only [List.mem_flatMap, List.mem_map, List.mem_range'_1, Prod.mk.injEq]
  constructor
  · rintro ⟨a, ⟨ha1, ha2⟩, b, ⟨hb1, hb2⟩, he1, he2⟩
    subst he1; subst he2
    omega
  · rintro ⟨h1, h2, h3, h4⟩
    exact ⟨p1, ⟨h1, by omega⟩, p2, ⟨h3, by omega⟩, rfl, rfl⟩

lemma pairwise_flatMap_product {la : List Nat} {lb : List Nat}
    (ha : la.Pairwise (· < ·)) (hb : lb.Pairwise (· < ·)) :
    (la.flatMap (fun a => lb.map (fun b => ((a, b) : Version)))).Pairwise vlt := by
  induction la with
  | nil => simp
  | cons a t ih =>
    simp only [List.flatMap_cons]
    rw [List.pairwise_append]
    refine ⟨?_, ih (List.Pairwise.of_cons ha), ?_⟩
    · exact List.Pairwise.map _ (fun b1 b2 h => Or.inr ⟨rfl, h⟩) hb
    · intro p hp q hq
      simp only [List.mem_map] at hp
      simp only [List.mem_flatMap, List.mem_map] at hq
      obtain ⟨b1, _, hp2⟩ := hp
      obtain ⟨a2, ha2, b2, _, hq2⟩ := hq
      subst hp2; subst hq2
      have : a < a2 := (List.pairwise_cons.mp ha).1 a2 ha2
      exact Or.inl this

lemma gvr_pairwise (mn mx : Version) :
    (get_version_requirements mn mx).Pairwise vlt := by
  unfold get_version_requirements
  exact pairwise_flatMap_product (List.pairwise_lt_range' _ _)
    (List.pairwise_lt_range' _ _)

/-- C6: get_version_requirements(min, max) returns exactly the pairs
(major, minor) with major in [min_major, max_major] and minor in
[min_minor, max_minor], as a Cartesian product ordered with major as the
outer ascending loop and minor as the inner ascending loop (hence strictly
lexicographically increasing, with no duplicates). -/
theorem get_version_requirements_product (mn mx : Version) :
    (∀ p : Version, p ∈ get_version_requirements mn mx ↔
      (mn.1 ≤ p.1 ∧ p.1 ≤ mx.1 ∧ mn.2 ≤ p.2 ∧ p.2 ≤ mx.2)) ∧
    (get_version_requirements mn mx).Pairwise vlt ∧
    get_version_requirements mn mx =
      (List.range' mn.1 (mx.1 + 1 - mn.1)).flatMap
        (fun major => (List.range' mn.2 (mx.2 + 1 - mn.2)).map
          (fun minor => (major, minor))) := by
  exact ⟨mem_get_version_requirements mn mx, gvr_pairwise mn mx, rfl⟩

/-- Loop body of version_code in src/auto_pytabs/core.py: for each version
in order, call the upgrade step `up` (the source calls
`_upgrade_code(latest_code, version, cache=cache)`, an opaque, possibly
stateful collaborator here taken as a parameter threading a state of type σ),
and if the result differs from `latest_code`, record it in the dict and
advance `latest_code`. -/
def vcGo {α σ : Type} [DecidableEq α] (up : α → Version → σ → α × σ) :
    List Version → α → List (Version × α) → σ → List (Version × α) × σ
  | [], _, vc, st => (vc, st)
  | v :: vs, latest, vc, st =>
    let r := up latest v st
    if r.1 = latest then vcGo up vs latest vc r.2
    else vcGo up vs r.1 (dictInsert v r.1 vc) r.2

/-- Embeds version_code of src/auto_pytabs/core.py. The source first builds
`versioned_code = {version_requirements[0]: code}` (an IndexError — embedded
as `none` — when the version list is empty) and then runs the loop over the
whole version list, including its first element. -/
def version_code {α σ : Type} [DecidableEq α] (up : α → Version → σ → α × σ)
    (code : α) (version_requirements : List Version) (st : σ) :
    Option (List (Version × α) × σ) :=
  match version_requirements with
  | [] => none
  | r0 :: _ => some (vcGo up version_requirements code [(r0, code)] st)

lemma dictInsert_of_not_mem {α β : Type} [DecidableEq α] (k : α) (v : β)
    (d : List (α × β)) (h : k ∉ d.map Prod.fst) :
    dictInsert k v d = d ++ [(k, v)] := by
  induction d with
  | nil => rfl
  | cons p t ih =>
    obtain ⟨k0, v0⟩ := p
    simp only [List.map_cons, List.mem_cons] at h
    push_neg at h
    simp only [dictInsert, List.cons_append]
    rw [if_neg (fun he => h.1 he.symm), ih h.2]

lemma dictInsert_head {α β : Type} [DecidableEq α] (k : α) (v : β)
    (p : α × β) (t : List (α × β)) (h : p.1 ≠ k) :
    dictInsert k v (p :: t) = p :: dictInsert k v t := by
  obtain ⟨k0, v0⟩ := p
  simp only [dictInsert, if_neg h]

/-- Head entry of the dict is preserved by the rest of the loop as long as
no remaining version equals the head key. -/
lemma vcGo_head {α σ : Type} [DecidableEq α] (up : α → Version → σ → α × σ)
    (vs : List Version) (latest : α) (k : Version) (val : α)
    (t : List (Version × α)) (st : σ) (h : ∀ v ∈ vs, v ≠ k) :
    ∃ t2, (vcGo up vs latest ((k, val) :: t) st).1 = (k, val) :: t2 := by
  induction vs generalizing latest t st with
  | nil => exact ⟨t, rfl⟩
  | cons v vs ih =>
    have hv : v ≠ k := h v (List.mem_cons_self v vs)
    have hrest : ∀ w ∈ vs, w ≠ k := fun w hw => h w (List.mem_cons_of_mem v hw)
    simp only [vcGo]
    by_cases hc : (up latest v st).1 = latest
    · rw [if_pos hc]; exact ih _ _ _ hrest
    · rw [if_neg hc,
        dictInsert_head v (up latest v st).1 (k, val) t (fun he => hv he.symm)]
      exact ih _ _ _ hrest

/-- C1 (counterexample): with baseline code 0 and a rewrite collaborator
that returns 1 at every version, version_code over the single-version range
[(3, 7)] stores 1 — the result of a rewrite — under the baseline key (3, 7),
not the original code 0: the loop of version_code runs over all versions
including the first, and a change at the baseline version overwrites the
baseline entry. -/
theorem version_code_baseline_overwritten :
    version_code (fun _ _ (s : Unit) => ((1 : Nat), s)) 0 [(3, 7)] () =
      some ([((3, 7), 1)], ()) ∧
    ¬ version_code (fun _ _ (s : Unit) => ((1 : Nat), s)) 0 [(3, 7)] () =
      some ([((3, 7), 0)], ()) := by
  constructor
  · rfl
  · decide

/-- C1 (amended): for every code C, every opaque (stateful) rewrite
collaborator and every non-empty version sequence whose first element does
not recur later, the first key of the mapping returned by version_code is
R[0]; the value stored under it is the collaborating upgrade step output on
(C, R[0]) — which is exactly C when the rewrite leaves C unchanged at the
baseline version, but is the rewritten code when the rewrite changes C at
R[0] itself. -/
theorem version_code_head_eq_rewrite_at_baseline {α σ : Type} [DecidableEq α]
    (up : α → Version → σ → α × σ) (code : α) (r0 : Version)
    (rest : List Version) (st : σ) (h : r0 ∉ rest) :
    ∃ res, version_code up code (r0 :: rest) st = some res ∧
      res.1.head? = some (r0, (up code r0 st).1) := by
  refine ⟨vcGo up (r0 :: rest) code [(r0, code)] st, rfl, ?_⟩
  simp only [vcGo]
  by_cases hc : (up code r0 st).1 = code
  · rw [if_pos hc]
    obtain ⟨t2, ht⟩ := vcGo_head up rest code r0 code []
      (up code r0 st).2 (fun v hv => fun he => h (he ▸ hv))
    rw [ht, List.head?_cons, hc]
  · rw [if_neg hc]
    have : dictInsert r0 (up code r0 st).1 [(r0, code)] =
        [(r0, (up code r0 st).1)] := by
      simp [dictInsert]
    rw [this]
    obtain ⟨t2, ht⟩ := vcGo_head up rest (up code r0 st).1
      r0 (up code r0 st).1 [] (up code r0 st).2
      (fun v hv => fun he => h (he ▸ hv))
    rw [ht, List.head?_cons]

/-- Witness: the amended C1 theorem applied at the identity collaborator,
code 0 and the version range [(3, 7)]. -/
theorem version_code_head_eq_rewrite_at_baseline_witness :
    ((3, 7) : Version) ∉ ([] : List Version) ∧
    ∃ res, version_code (fun c _ (s : Unit) => ((c : Nat), s)) 0 [(3, 7)] ()
      = some res ∧ res.1.head? = some ((3, 7), 0) :=
  ⟨by decide, version_code_head_eq_rewrite_at_baseline
    (fun c _ (s : Unit) => ((c : Nat), s)) 0 (3, 7) [] () (by decide)⟩

/-- Invariant of the version_code loop: if the dict keys followed by the
remaining versions are strictly increasing, the final dict keys are
strictly increasing. -/
lemma vcGo_pairwise {α σ : Type} [DecidableEq α] (up : α → Version → σ → α × σ)
    (todo : List Version) (latest : α) (vc : List (Version × α)) (st : σ)
    (h : (vc.map Prod.fst ++ todo).Pairwise vlt) :
    ((vcGo up todo latest vc st).1.map Prod.fst).Pairwise vlt := by
  induction todo generalizing latest vc st with
  | nil => simpa using h
  | cons v vs ih =>
    simp only [vcGo]
    by_cases hc : (up latest v st).1 = latest
    · rw [if_pos hc]
      refine ih _ _ _ ?_
      have hsub : (vc.map Prod.fst ++ vs).Sublist
          (vc.map Prod.fst ++ (v :: vs)) :=
        (List.sublist_cons_self v vs).append_left (vc.map Prod.fst)
      exact h.sublist hsub
    · rw [if_neg hc]
      refine ih _ _ _ ?_
      have hnotmem : v ∉ vc.map Prod.fst := by
        intro hmem
        have := (List.pairwise_append.mp h).2.2 v hmem v (List.mem_cons_self v vs)
        exact vlt_irrefl v this
      rw [dictInsert_of_not_mem v (up latest v st).1 vc hnotmem]
      have : ((vc ++ [(v, (up latest v st).1)]).map Prod.fst) ++ vs =
          vc.map Prod.fst ++ (v :: vs) := by
        simp
      rw [this]
      exact h

/-- C7: for every code, every behaviour of the opaque (stateful) rewrite
collaborator and every non-empty version sequence produced by the range
walk, the mapping returned by version_code has keys that are strictly
increasing in range-walk (insertion) order, and no version key occurs
twice, so no key maps to two different code values. -/
theorem version_code_keys_strict_mono {α σ : Type} [DecidableEq α]
    (up : α → Version → σ → α × σ) (code : α) (st : σ) (mn mx : Version)
    (h : get_version_requirements mn mx ≠ []) :
    ∃ res, version_code up code (get_version_requirements mn mx) st = some res ∧
      (res.1.map Prod.fst).Pairwise vlt ∧ (res.1.map Prod.fst).Nodup := by
  obtain ⟨r0, rest, hr⟩ := List.exists_cons_of_ne_nil h
  have hpw : (get_version_requirements mn mx).Pairwise vlt := gvr_pairwise mn mx
  rw [hr] at hpw ⊢
  refine ⟨vcGo up (r0 :: rest) code [(r0, code)] st, rfl, ?_⟩
  have hkeys : ((vcGo up (r0 :: rest) code [(r0, code)] st).1.map
      Prod.fst).Pairwise vlt := by
    simp only [vcGo]
    by_cases hc : (up code r0 st).1 = code
    · rw [if_pos hc]
      refine vcGo_pairwise up rest code [(r0, code)] _ ?_
      simpa using hpw
    · rw [if_neg hc]
      have : dictInsert r0 (up code r0 st).1 [(r0, code)] =
          [(r0, (up code r0 st).1)] := by simp [dictInsert]
      rw [this]
      refine vcGo_pairwise up rest (up code r0 st).1 [(r0, (up code r0 st).1)] _ ?_
      simpa using hpw
  exact ⟨hkeys, hkeys.imp (fun hab => by
    intro he
    exact vlt_irrefl _ (he ▸ hab))⟩

/-- Witness: C7 applied at the identity collaborator, code 0 and the range
min = (3, 7), max = (3, 9). -/
theorem version_code_keys_strict_mono_witness :
    get_version_requirements (3, 7) (3, 9) ≠ [] ∧
    ∃ res, version_code (fun c _ (s : Unit) => ((c : Nat), s)) 0
        (get_version_requirements (3, 7) (3, 9)) () = some res ∧
      (res.1.map Prod.fst).Pairwise vlt ∧ (res.1.map Prod.fst).Nodup :=
  ⟨by decide, version_code_keys_strict_mono
    (fun c _ (s : Unit) => ((c : Nat), s)) 0 () (3, 7) (3, 9) (by decide)⟩

/-- State of the Cache class of src/auto_pytabs/core.py: the in-memory dict
`_cache`, the touched key set `_touched`, and the persistent content
directory (one file per key) embedded as a key-content map. -/
structure CacheState where
  cache : List (List Char × List Char)
  touched : List (List Char)
  disk : List (List Char × List Char)
deriving DecidableEq

/-- Embedding of `self._touched.add(key)`: set insertion. -/
def touchAdd (k : List Char) (t : List (List Char)) : List (List Char) :=
  if k ∈ t then t else k :: t

/-- Embeds Cache.get: adds the key to the touched set and returns
`self._cache.get(key)`, together with the updated state. -/
def Cache.get (s : CacheState) (key : List Char) :
    Option (List Char) × CacheState :=
  (dictLookup key s.cache, { s with touched := touchAdd key s.touched })

/-- Embeds Cache.set: stores the content in the in-memory dict and marks
the key touched. -/
def Cache.set (s : CacheState) (key content : List Char) : CacheState :=
  { s with cache := dictInsert key content s.cache,
           touched := touchAdd key s.touched }

/-- Embeds Cache.__init__ together with Cache._load: the in-memory dict is
populated with the content of every file in the cache content directory
(the parallel read order is irrelevant for a key-content map with unique
keys), and the touched set starts empty. -/
def Cache.load (disk0 : List (List Char × List Char)) : CacheState :=
  { cache := disk0, touched := [], disk := disk0 }

/-- Embedding of `path.unlink(missing_ok=True)` on the content directory:
every entry under the given key is removed. -/
def delKey (k0 : List Char) (d : List (List Char × List Char)) :
    List (List Char × List Char) :=
  d.filter (fun e => decide (¬ e.1 = k0))

/-- Body of the Cache.persist loop over the in-memory dict items: a touched
key has its content written to disk; an untouched key is unlinked from disk
when `evict` is true. -/
def persistStep (touched : List (List Char)) (evict : Bool)
    (d : List (List Char × List Char)) (kc : List Char × List Char) :
    List (List Char × List Char) :=
  if kc.1 ∈ touched then dictInsert kc.1 kc.2 d
  else if evict then delKey kc.1 d
  else d

/-- Embeds Cache.persist: iterate over the in-memory dict items and apply
`persistStep` to the disk; the in-memory dict and the touched set are not
modified. -/
def Cache.persist (s : CacheState) (evict : Bool) : CacheState :=
  { cache := s.cache, touched := s.touched,
    disk := s.cache.foldl (persistStep s.touched evict) s.disk }

/-- One cache access during a run: a `get(k)` or a `set(k, v)` call. -/
inductive CacheOp : Type
  | get : List Char → CacheOp
  | set : List Char → List Char → CacheOp
deriving DecidableEq

/-- Applies one cache access to the state. -/
def applyOp (s : CacheState) : CacheOp → CacheState
  | CacheOp.get k => (Cache.get s k).2
  | CacheOp.set k v => Cache.set s k v

/-- Runs a sequence of cache accesses. -/
def runOps (s : CacheState) (ops : List CacheOp) : CacheState :=
  ops.foldl applyOp s

lemma dictLookup_not_mem {α β : Type} [DecidableEq α] (k : α)
    (d : List (α × β)) (h : k ∉ d.map Prod.fst) : dictLookup k d = none := by
  induction d with
  | nil => rfl
  | cons p t ih =>
    obtain ⟨a, b⟩ := p
    simp only [List.map_cons, List.mem_cons] at h
    push_neg at h
    have hne : ¬ a = k := fun he => h.1 he.symm
    simp only [dictLookup, if_neg hne]
    exact ih h.2

lemma dictLookup_dictInsert_self {α β : Type} [DecidableEq α] (k : α) (v : β)
    (d : List (α × β)) : dictLookup k (dictInsert k v d) = some v := by
  induction d with
  | nil => simp [dictInsert, dictLookup]
  | cons p t ih =>
    obtain ⟨a, b⟩ := p
    by_cases ha : a = k
    · simp [dictInsert, dictLookup, ha]
    · simp only [dictInsert, if_neg ha, dictLookup, if_neg ha]
      exact ih

lemma dictLookup_dictInsert_ne {α β : Type} [DecidableEq α] (k k2 : α) (v : β)
    (d : List (α × β)) (h : k2 ≠ k) :
    dictLookup k (dictInsert k2 v d) = dictLookup k d := by
  induction d with
  | nil => simp [dictInsert, dictLookup, if_neg h]
  | cons p t ih =>
    obtain ⟨a, b⟩ := p
    by_cases ha : a = k2
    · subst ha
      simp only [dictInsert, if_pos rfl, dictLookup, if_neg h]
    · simp only [dictInsert, if_neg ha, dictLookup]
      by_cases hak : a = k
      · simp [hak]
      · simp only [if_neg hak]
        exact ih

lemma dictLookup_delKey {k k0 : List Char}
    (d : List (List Char × List Char)) :
    dictLookup k (delKey k0 d) = if k = k0 then none else dictLookup k d := by
  induction d with
  | nil => simp [delKey, dictLookup]
  | cons p t ih =>
    obtain ⟨a, b⟩ := p
    by_cases ha : a = k0
    · subst ha
      have h1 : delKey a ((a, b) :: t) = delKey a t := by
        simp [delKey, List.filter_cons]
      rw [h1, ih]
      by_cases hk : k = a
      · simp [hk]
      · have hne : ¬ a = k := fun he => hk he.symm
        simp only [if_neg hk, dictLookup, if_neg hne]
    · have h1 : delKey k0 ((a, b) :: t) = (a, b) :: delKey k0 t := by
        simp [delKey, List.filter_cons, ha]
      rw [h1]
      simp only [dictLookup]
      by_cases hak : a = k
      · subst hak
        rw [if_pos rfl, if_pos rfl, if_neg (fun he => ha he)]
      · rw [if_neg hak, if_neg hak, ih]

/-- Keys of the dict after an insert. -/
lemma dictInsert_map_fst {α β : Type} [DecidableEq α] (k : α) (v : β)
    (d : List (α × β)) :
    (dictInsert k v d).map Prod.fst =
      if k ∈ d.map Prod.fst then d.map Prod.fst else d.map Prod.fst ++ [k] := by
  induction d with
  | nil => simp [dictInsert]
  | cons p t ih =>
    obtain ⟨a, b⟩ := p
    by_cases ha : a = k
    · subst ha
      simp [dictInsert]
    · simp only [dictInsert, if_neg ha, List.map_cons, List.mem_cons]
      rw [ih]
      by_cases hm : k ∈ t.map Prod.fst
      · rw [if_pos hm, if_pos (Or.inr hm)]
      · rw [if_neg hm, if_neg (by
          intro hc
          rcases hc with hc | hc
          · exact ha hc.symm
          · exact hm hc)]
        simp

/-- Characterization of the disk after the Cache.persist eviction fold, for
an in-memory dict with unique keys. -/
lemma persist_fold_lookup (touched : List (List Char))
    (entries : List (List Char × List Char))
    (d : List (List Char × List Char)) (k : List Char)
    (hnd : (entries.map Prod.fst).Nodup) :
    dictLookup k (entries.foldl (persistStep touched true) d) =
    if k ∈ entries.map Prod.fst then
      (if k ∈ touched then dictLookup k entries else none)
    else dictLookup k d := by
  induction entries generalizing d with
  | nil => simp
  | cons p t ih =>
    obtain ⟨a, b⟩ := p
    simp only [List.map_cons, List.nodup_cons] at hnd
    simp only [List.foldl_cons]
    by_cases hak : a = k
    · subst hak
      have hknt : a ∉ t.map Prod.fst := hnd.1
      rw [ih _ hnd.2, if_neg hknt]
      by_cases ht : a ∈ touched
      · rw [if_pos (by simp), if_pos ht]
        simp only [dictLookup, if_pos rfl]
        simp only [persistStep, if_pos ht]
        exact dictLookup_dictInsert_self a b d
      · rw [if_pos (by simp), if_neg ht]
        simp only [persistStep, if_neg ht, if_true]
        rw [dictLookup_delKey, if_pos rfl]
    · rw [ih _ hnd.2]
      have hmem : (k ∈ List.map Prod.fst ((a, b) :: t)) ↔
          k ∈ t.map Prod.fst := by
        simp only [List.map_cons, List.mem_cons]
        constructor
        · intro hc
          rcases hc with hc | hc
          · exact absurd hc.symm hak
          · exact hc
        · exact Or.inr
      by_cases hmt : k ∈ t.map Prod.fst
      · rw [if_pos hmt, if_pos (hmem.mpr hmt)]
        by_cases ht : k ∈ touched
        · rw [if_pos ht, if_pos ht]
          simp only [dictLookup, if_neg hak]
        · rw [if_neg ht, if_neg ht]
      · rw [if_neg hmt, if_neg (fun hc => hmt (hmem.mp hc))]
        by_cases ht : a ∈ touched
        · simp only [persistStep, if_pos ht]
          exact dictLookup_dictInsert_ne k a b d hak
        · simp only [persistStep, if_neg ht, if_true]
          rw [dictLookup_delKey, if_neg (fun he => hak he.symm)]

/-- Session invariants: the ops leave the disk untouched, keep the
in-memory keys a superset of the loaded keys, keep them unique, and only
grow the touched set. -/
lemma runOps_invariants (ops : List CacheOp) (s : CacheState) :
    (runOps s ops).disk = s.disk ∧
    (∀ k, k ∈ s.cache.map Prod.fst → k ∈ (runOps s ops).cache.map Prod.fst) ∧
    ((s.cache.map Prod.fst).Nodup → ((runOps s ops).cache.map Prod.fst).Nodup) ∧
    (∀ k, k ∈ s.touched → k ∈ (runOps s ops).touched) := by
  induction ops generalizing s with
  | nil => exact ⟨rfl, fun _ h => h, fun h => h, fun _ h => h⟩
  | cons op ops ih =>
    have hstep : (applyOp s op).disk = s.disk ∧
        (∀ k, k ∈ s.cache.map Prod.fst → k ∈ (applyOp s op).cache.map Prod.fst) ∧
        ((s.cache.map Prod.fst).Nodup →
          ((applyOp s op).cache.map Prod.fst).Nodup) ∧
        (∀ k, k ∈ s.touched → k ∈ (applyOp s op).touched) := by
      cases op with
      | get k =>
        refine ⟨rfl, fun _ h => h, fun h => h, fun k2 h => ?_⟩
        simp only [applyOp, Cache.get, touchAdd]
        split
        · exact h
        · exact List.mem_cons_of_mem _ h
      | set k v =>
        refine ⟨rfl, ?_, ?_, ?_⟩
        · intro k2 h
          simp only [applyOp, Cache.set, dictInsert_map_fst]
          split
          · exact h
          · exact List.mem_append_left _ h
        · intro h
          simp only [applyOp, Cache.set, dictInsert_map_fst]
          split
          · exact h
          · next hnm =>
              rw [List.nodup_append]
              refine ⟨h, List.nodup_singleton _, ?_⟩
              intro a ha hb
              simp only [List.mem_singleton] at hb
              subst hb
              exact hnm ha
        · intro k2 h
          simp only [applyOp, Cache.set, touchAdd]
          split
          · exact h
          · exact List.mem_cons_of_mem _ h
    obtain ⟨ih1, ih2, ih3, ih4⟩ := ih (applyOp s op)
    refine ⟨?_, ?_, ?_, ?_⟩
    · exact ih1.trans hstep.1
    · intro k h
      exact ih2 k (hstep.2.1 k h)
    · intro h
      exact ih3 (hstep.2.2.1 h)
    · intro k h
      exact ih4 k (hstep.2.2.2 k h)

/-- Keys never touched during the run keep their load-time content in the
in-memory dict. -/
lemma runOps_untouched_lookup (ops : List CacheOp) (s : CacheState)
    (k : List Char) (h : k ∉ (runOps s ops).touched) :
    dictLookup k (runOps s ops).cache = dictLookup k s.cache := by
  induction ops generalizing s with
  | nil => rfl
  | cons op ops ih =>
    have hrun : runOps s (op :: ops) = runOps (applyOp s op) ops := rfl
    rw [hrun] at h ⊢
    rw [ih _ h]
    cases op with
    | get k2 => rfl
    | set k2 v =>
      have hne : k2 ≠ k := by
        intro he
        subst he
        have hmem : k2 ∈ (applyOp s (CacheOp.set k2 v)).touched := by
          simp only [applyOp, Cache.set, touchAdd]
          split
          · next hmem2 => exact hmem2
          · exact List.mem_cons_self _ _
        exact h ((runOps_invariants ops _).2.2.2 k2 hmem)
      simpa only [applyOp, Cache.set] using
        dictLookup_dictInsert_ne k k2 v s.cache hne

/-- C2 (counterexample): starting from a persistent store holding key "a",
a session that only sets key "b" and then persists with evict = true leaves
the ("a", "x") entry — present in memory at load time and never touched —
still present in the in-memory map, refuting the part of the claim that
says untouched loaded entries are gone from the in-memory map as well. (The
disk part does hold: "a" is deleted from disk, third conjunct.) -/
theorem cache_persist_keeps_memory :
    dictLookup ("a".toList)
      (Cache.persist
        (runOps (Cache.load [(("a".toList), ("x".toList))])
          [CacheOp.set ("b".toList) ("y".toList)]) true).cache =
      some ("x".toList) ∧
    ("a".toList) ∉
      (runOps (Cache.load [(("a".toList), ("x".toList))])
        [CacheOp.set ("b".toList) ("y".toList)]).touched ∧
    dictLookup ("a".toList)
      (Cache.persist
        (runOps (Cache.load [(("a".toList), ("x".toList))])
          [CacheOp.set ("b".toList) ("y".toList)]) true).disk = none := by
  refine ⟨?_, ?_, ?_⟩ <;> decide

/-- C2 (amended): get(k) and set(k, v) add k to the touched set, and
persist(evict = true) writes every touched in-memory (key, content) pair to
the persistent store and deletes from disk — but not from memory — every
entry that was loaded but never touched. Afterwards a key is on disk with
content c exactly when it is touched and the in-memory map holds c for it,
so only keys touched during the session remain on disk; the in-memory map
and the touched set are unchanged by persist, and untouched loaded keys
keep their load-time content in memory. -/
theorem cache_persist_evict_disk_spec
    (disk0 : List (List Char × List Char)) (ops : List CacheOp)
    (k : List Char) (hnd : (disk0.map Prod.fst).Nodup) :
    (Cache.persist (runOps (Cache.load disk0) ops) true).cache =
      (runOps (Cache.load disk0) ops).cache ∧
    (Cache.persist (runOps (Cache.load disk0) ops) true).touched =
      (runOps (Cache.load disk0) ops).touched ∧
    dictLookup k (Cache.persist (runOps (Cache.load disk0) ops) true).disk =
      (if k ∈ (runOps (Cache.load disk0) ops).touched then
        dictLookup k (runOps (Cache.load disk0) ops).cache
      else none) ∧
    (k ∈ disk0.map Prod.fst → k ∉ (runOps (Cache.load disk0) ops).touched →
      dictLookup k (runOps (Cache.load disk0) ops).cache =
        dictLookup k disk0) := by
  obtain ⟨hdisk, hsup, hnodup, hmono⟩ := runOps_invariants ops (Cache.load disk0)
  have hnd2 : ((runOps (Cache.load disk0) ops).cache.map Prod.fst).Nodup :=
    hnodup hnd
  refine ⟨rfl, rfl, ?_, ?_⟩
  · have hfold := persist_fold_lookup
      (runOps (Cache.load disk0) ops).touched
      (runOps (Cache.load disk0) ops).cache
      (runOps (Cache.load disk0) ops).disk k hnd2
    simp only [Cache.persist]
    rw [hfold]
    by_cases hmem : k ∈ (runOps (Cache.load disk0) ops).cache.map Prod.fst
    · rw [if_pos hmem]
    · rw [if_neg hmem]
      have hk0 : k ∉ disk0.map Prod.fst := fun hc => hmem (hsup k hc)
      have hd : dictLookup k (runOps (Cache.load disk0) ops).disk = none := by
        rw [hdisk]
        exact dictLookup_not_mem k disk0 hk0
      rw [hd]
      have hc : dictLookup k (runOps (Cache.load disk0) ops).cache = none :=
        dictLookup_not_mem k _ hmem
      rw [hc]
      split
      · rfl
      · rfl
  · intro _ htouch
    exact runOps_untouched_lookup ops (Cache.load disk0) k htouch

/-- Witness: C2 amended applied to a store holding keys "a" and "b" with a
session that reads "a" and writes "c". -/
theorem cache_persist_evict_disk_spec_witness :
    ((([(("a".toList), ("x".toList)), (("b".toList), ("y".toList))] :
        List (List Char × List Char)).map Prod.fst).Nodup) ∧
    dictLookup ("a".toList)
      (Cache.persist
        (runOps (Cache.load
          [(("a".toList), ("x".toList)), (("b".toList), ("y".toList))])
          [CacheOp.get ("a".toList), CacheOp.set ("c".toList) ("z".toList)])
        true).disk =
      (if ("a".toList) ∈
          (runOps (Cache.load
            [(("a".toList), ("x".toList)), (("b".toList), ("y".toList))])
            [CacheOp.get ("a".toList),
              CacheOp.set ("c".toList) ("z".toList)]).touched
        then dictLookup ("a".toList)
          (runOps (Cache.load
            [(("a".toList), ("x".toList)), (("b".toList), ("y".toList))])
            [CacheOp.get ("a".toList),
              CacheOp.set ("c".toList) ("z".toList)]).cache
        else none) :=
  ⟨by decide,
    (cache_persist_evict_disk_spec
      [(("a".toList), ("x".toList)), (("b".toList), ("y".toList))]
      [CacheOp.get ("a".toList), CacheOp.set ("c".toList) ("z".toList)]
      ("a".toList) (by decide)).2.2.1⟩

/-- Embeds _upgrade_code of src/auto_pytabs/core.py. The external rewrite
collaborator _run_ruff is the opaque parameter `run_ruff`; the source
invokes it with target version string f-py3-minor, so it receives only the
minor component. `make_cache_key` stands for Cache.make_cache_key (a sha1
hex digest over the str forms of code and version). The walrus condition
`if cached_code := cache.get(cache_key):` makes an empty cached string
falsy, and `if cache_key and cache:` skips the store when the key is the
empty string. -/
def upgrade_code (run_ruff : List Char → Nat → List Char)
    (make_cache_key : List Char → Version → List Char)
    (code : List Char) (min_version : Version) (cache : Option CacheState) :
    List Char × Option CacheState :=
  match cache with
  | none => (run_ruff code min_version.2, none)
  | some s =>
    let cache_key := make_cache_key code min_version
    let got := Cache.get s cache_key
    match got.1 with
    | some cached_code =>
      if cached_code = [] then
        let code2 := run_ruff code min_version.2
        if cache_key = [] then (code2, some got.2)
        else (code2, some (Cache.set got.2 cache_key code2))
      else (cached_code, some got.2)
    | none =>
      let code2 := run_ruff code min_version.2
      if cache_key = [] then (code2, some got.2)
      else (code2, some (Cache.set got.2 cache_key code2))

/-- Embeds _upgrade of src/auto_pytabs.py (the uncached upgrade step of the
historical single-file module): run the opaque pyupgrade collaborator
`fix_plugins`; if it left the code unchanged return the code, otherwise
additionally run the opaque autoflake unused-import cleanup `fix_code` on
the result. -/
def upgrade (fix_plugins : List Char → Version → List Char)
    (fix_code : List Char → List Char)
    (code : List Char) (min_version : Version) : List Char :=
  let upgraded_code := fix_plugins code min_version
  if upgraded_code = code then code
  else fix_code upgraded_code

/-- C3 (counterexample): a cache whose stored content under the key is the
empty string is a hit for the claim ("for any cached content value"), yet
_upgrade_code falls through its falsy walrus test, invokes the rewrite
collaborator and returns its output "R" instead of the cached empty
content. -/
theorem upgrade_code_empty_hit_invokes_rewrite :
    dictLookup ("k".toList)
      (CacheState.mk [(("k".toList), ([] : List Char))] [] []).cache =
      some ([] : List Char) ∧
    (upgrade_code (fun _ _ => ("R".toList)) (fun _ _ => ("k".toList))
      ("c".toList) (3, 7)
      (some (CacheState.mk [(("k".toList), ([] : List Char))] [] []))).1 =
      ("R".toList) ∧
    ¬ (("R".toList) = ([] : List Char)) := by
  refine ⟨?_, ?_, ?_⟩ <;> decide

/-- C3 (amended): _upgrade_code computes the cache key from
(code, version); when the key holds a non-empty cached content it returns
that content (for every behaviour of the rewrite collaborator, i.e. without
invoking it), only marking the key touched; an empty cached content is
treated like a miss: on a miss it invokes the rewrite and stores the result
under the key (when the key is non-empty). In the single-file module the
unused-import cleanup pass runs exactly when the pyupgrade rewrite changed
the input. -/
theorem upgrade_code_cache_spec
    (run_ruff : List Char → Nat → List Char)
    (make_cache_key : List Char → Version → List Char)
    (fix_plugins : List Char → Version → List Char)
    (fix_code : List Char → List Char)
    (code : List Char) (v : Version) (s : CacheState) :
    (∀ c, dictLookup (make_cache_key code v) s.cache = some c → c ≠ [] →
      upgrade_code run_ruff make_cache_key code v (some s) =
        (c, some { s with
          touched := touchAdd (make_cache_key code v) s.touched })) ∧
    (dictLookup (make_cache_key code v) s.cache = none →
      make_cache_key code v ≠ [] →
      upgrade_code run_ruff make_cache_key code v (some s) =
        (run_ruff code v.2,
          some (Cache.set
            { s with touched := touchAdd (make_cache_key code v) s.touched }
            (make_cache_key code v) (run_ruff code v.2)))) ∧
    (dictLookup (make_cache_key code v) s.cache = some [] →
      make_cache_key code v ≠ [] →
      upgrade_code run_ruff make_cache_key code v (some s) =
        (run_ruff code v.2,
          some (Cache.set
            { s with touched := touchAdd (make_cache_key code v) s.touched }
            (make_cache_key code v) (run_ruff code v.2)))) ∧
    (fix_plugins code v = code → upgrade fix_plugins fix_code code v = code) ∧
    (fix_plugins code v ≠ code →
      upgrade fix_plugins fix_code code v = fix_code (fix_plugins code v)) := by
  refine ⟨?_, ?_, ?_, ?_, ?_⟩
  · intro c hc hne
    simp only [upgrade_code, Cache.get, hc, if_neg hne]
  · intro hc hk
    simp only [upgrade_code, Cache.get, hc, if_neg hk]
  · intro hc hk
    simp only [upgrade_code, Cache.get, hc, if_pos rfl, if_neg hk, if_true]
  · intro h
    simp only [upgrade, if_pos h]
  · intro h
    simp only [upgrade, if_neg h]

/-- Witness: the non-empty-hit clause of C3 applied at a cache holding
content "v" under key "k". -/
theorem upgrade_code_cache_spec_witness :
    dictLookup ("k".toList)
      (CacheState.mk [(("k".toList), ("v".toList))] [] []).cache =
      some ("v".toList) ∧
    ("v".toList) ≠ ([] : List Char) ∧
    upgrade_code (fun _ _ => ("R".toList)) (fun _ _ => ("k".toList))
      ("c".toList) (3, 7)
      (some (CacheState.mk [(("k".toList), ("v".toList))] [] [])) =
      (("v".toList),
        some (CacheState.mk [(("k".toList), ("v".toList))]
          (touchAdd ("k".toList) []) [])) :=
  ⟨by decide, by decide,
    (upgrade_code_cache_spec (fun _ _ => ("R".toList))
      (fun _ _ => ("k".toList)) (fun _ v2 => ("c".toList)) (fun c => c)
      ("c".toList) (3, 7)
      (CacheState.mk [(("k".toList), ("v".toList))] [] [])).1
      ("v".toList) (by decide) (by decide)⟩

/-- True when the line contains no newline character; lines obtained from
str.splitlines never do. -/
def noNL (l : List Char) : Bool := l.all (fun c => decide (¬ c = '\n'))

/-- Embedding of str.startswith on character lists. -/
def startsList : List Char → List Char → Bool
  | [], _ => true
  | _ :: _, [] => false
  | a :: as, b :: bs => decide (a = b) && startsList as bs

/-- Substring test: what the regex fragment `.*pat` can match inside a
single line (no newlines). -/
def hasSub (pat : List Char) : List Char → Bool
  | [] => startsList pat []
  | c :: cs => startsList pat (c :: cs) || hasSub pat cs

/-- Embedding of str.removeprefix. -/
def removePre (pre l : List Char) : List Char :=
  if startsList pre l then l.drop pre.length else l

/-- The Python str.strip whitespace characters. -/
def isPySpace (c : Char) : Bool :=
  c = ' ' || c = '\t' || c = '\n' || c = '\r' ||
    c = Char.ofNat 11 || c = Char.ofNat 12

/-- Embedding of str.strip(). -/
def pyStrip (l : List Char) : List Char :=
  ((l.dropWhile isPySpace).reverse.dropWhile isPySpace).reverse

/-- Embedding of newline.join on lines. -/
def joinNL : List (List Char) → List Char
  | [] => []
  | [l] => l
  | l :: l2 :: ls => l ++ '\n' :: joinNL (l2 :: ls)

/-- Embedding of str.splitlines for text whose line breaks are newline
characters: no empty trailing line is produced for text ending in a
newline, and the empty text yields no lines. -/
def splitNL : List Char → List (List Char)
  | [] => []
  | c :: cs =>
    if c = '\n' then [] :: splitNL cs
    else
      match splitNL cs with
      | [] => [[c]]
      | l :: ls => (c :: l) :: ls

/-- The opening-fence token of RGX_BLOCK_TOKENS (branch 1, `.*` + token +
`[\w\W]*`): a line opens a block when it contains this token. -/
def openTok : List Char := "```py".toList

/-- The closing-fence token of RGX_BLOCK_TOKENS (branch 2): a line matches
when it contains the bare fence marker (branch 2 is only reached when
branch 1 fails). -/
def closeTok : List Char := "```".toList

/-- The literal pieces of RGX_PYTABS_DIRECTIVE. -/
def commentOpen : List Char := "<!--".toList

/-- The autopytabs tag of RGX_PYTABS_DIRECTIVE. -/
def pytabsTag : List Char := "autopytabs:".toList

/-- The comment-close token of RGX_PYTABS_DIRECTIVE. -/
def commentClose : List Char := "-->".toList

/-- Consume a literal token at the start of the line. -/
def dropTok (tok l : List Char) : Option (List Char) :=
  if startsList tok l then some (l.drop tok.length) else none

/-- Consume the optional single space of the regex fragments: the greedy
single-space option is equivalent to dropping one leading space when
present, because neither following literal starts with a space and a
comment-close occurrence in a space-prefixed rest is an occurrence in the
rest. -/
def dropOptSpace : List Char → List Char
  | ' ' :: rest => rest
  | l => l

/-- Start index of the last occurrence of pat in l, if any: where the
greedy `(.*)pat` places the end of its capture group. -/
def lastOccStart (pat l : List Char) : Option Nat :=
  ((List.range (l.length + 1)).filter
    (fun i => startsList pat (l.drop i))).getLast?

/-- Matches RGX_PYTABS_DIRECTIVE of src/auto_pytabs/markdown_ext.py
(re.match, anchored at the line start, trailing content allowed) and
returns the greedy capture group 1. -/
def matchDirective (line : List Char) : Option (List Char) :=
  match dropTok commentOpen line with
  | none => none
  | some r1 =>
    match dropTok pytabsTag (dropOptSpace r1) with
    | none => none
    | some r2 =>
      let r3 := dropOptSpace r2
      match lastOccStart commentClose r3 with
      | none => none
      | some i => some (r3.take i)

/-- The closed directive variants of PYTAB_DIRECTIVES. -/
inductive Directive : Type
  | disable : Directive
  | enable : Directive
  | disableBlock : Directive
deriving DecidableEq

/-- Directive keyword disable. -/
def disableTok : List Char := "disable".toList

/-- Directive keyword enable. -/
def enableTok : List Char := "enable".toList

/-- Directive keyword disable-block. -/
def disableBlockTok : List Char := "disable-block".toList

/-- Embeds _get_pytabs_directive of src/auto_pytabs/markdown_ext.py: none
when the directive pattern does not match the line, the parsed directive
when the stripped capture group is one of the three keywords, and the
RuntimeError "Invalid AutoPytabs directive" (the error condition the spec
taxonomy names InvalidDirective) carrying the offending value otherwise. -/
def get_pytabs_directive (line : List Char) :
    Except (List Char) (Option Directive) :=
  match matchDirective line with
  | none => Except.ok none
  | some g =>
    let matched_directive := pyStrip g
    if matched_directive = disableTok then Except.ok (some Directive.disable)
    else if matched_directive = enableTok then Except.ok (some Directive.enable)
    else if matched_directive = disableBlockTok then
      Except.ok (some Directive.disableBlock)
    else Except.error matched_directive

/-- C8: directive parsing returns no directive for a line that does not
match the autopytabs comment pattern, returns the corresponding directive
value exactly for the three recognized keywords disable, enable and
disable-block (the stripped capture group), and fails with the
invalid-directive error for every line matching the pattern with any other
value. -/
theorem get_pytabs_directive_spec (line : List Char) :
    (matchDirective line = none →
      get_pytabs_directive line = Except.ok none) ∧
    (∀ g, matchDirective line = some g → pyStrip g = disableTok →
      get_pytabs_directive line = Except.ok (some Directive.disable)) ∧
    (∀ g, matchDirective line = some g → pyStrip g = enableTok →
      get_pytabs_directive line = Except.ok (some Directive.enable)) ∧
    (∀ g, matchDirective line = some g → pyStrip g = disableBlockTok →
      get_pytabs_directive line = Except.ok (some Directive.disableBlock)) ∧
    (∀ g, matchDirective line = some g → pyStrip g ≠ disableTok →
      pyStrip g ≠ enableTok → pyStrip g ≠ disableBlockTok →
      get_pytabs_directive line = Except.error (pyStrip g)) := by
  refine ⟨?_, ?_, ?_, ?_, ?_⟩
  · intro h
    simp only [get_pytabs_directive, h]
  · intro g hg hs
    simp only [get_pytabs_directive, hg, hs]
    rfl
  · intro g hg hs
    have hne : pyStrip g ≠ disableTok := by
      rw [hs]
      decide
    simp only [get_pytabs_directive, hg, if_neg hne, hs]
    rfl
  · intro g hg hs
    have hne : pyStrip g ≠ disableTok := by
      rw [hs]
      decide
    have hne2 : pyStrip g ≠ enableTok := by
      rw [hs]
      decide
    simp only [get_pytabs_directive, hg, if_neg hne, if_neg hne2, hs]
    rfl
  · intro g hg h1 h2 h3
    simp only [get_pytabs_directive, hg, if_neg h1, if_neg h2, if_neg h3]

/-- Witness: C8 applied to the canonical disable directive line, a
non-directive line and an invalid directive line. -/
theorem get_pytabs_directive_spec_witness :
    (matchDirective ("<!-- autopytabs: disable -->".toList) =
      some ("disable ".toList) ∧
     pyStrip ("disable ".toList) = disableTok ∧
     get_pytabs_directive ("<!-- autopytabs: disable -->".toList) =
      Except.ok (some Directive.disable)) ∧
    (matchDirective ("plain text".toList) = none ∧
     get_pytabs_directive ("plain text".toList) = Except.ok none) ∧
    (matchDirective ("<!-- autopytabs: nope -->".toList) =
      some ("nope ".toList) ∧
     get_pytabs_directive ("<!-- autopytabs: nope -->".toList) =
      Except.error ("nope".toList)) :=
  ⟨⟨by decide, by decide,
    (get_pytabs_directive_spec ("<!-- autopytabs: disable -->".toList)).2.1
      ("disable ".toList) (by decide) (by decide)⟩,
   ⟨by decide,
    (get_pytabs_directive_spec ("plain text".toList)).1 (by decide)⟩,
   ⟨by decide,
    (get_pytabs_directive_spec ("<!-- autopytabs: nope -->".toList)).2.2.2.2
      ("nope ".toList) (by decide) (by decide) (by decide) (by decide)⟩⟩

/-- Embeds strip_indentation of src/auto_pytabs/markdown_ext.py: when the
first character of the first line is a space or a tab, the indentation is
the leading run of that character in the first line (what the source
computes via len minus len of lstrip of that character), otherwise it is
empty; it is removed from every line with str.removeprefix. An empty list
of lines yields empty output; an empty first line makes the source raise
IndexError, embedded as none. -/
def strip_indentation (lines : List (List Char)) :
    Option (List (List Char) × List Char) :=
  match lines with
  | [] => some ([], [])
  | first_line :: _ =>
    match first_line with
    | [] => none
    | c0 :: _ =>
      let indent := if c0 = ' ' || c0 = '\t' then
          first_line.takeWhile (fun c => decide (c = c0)) else []
      some (lines.map (removePre indent), indent)

/-- The indentation strip_indentation computes from the first line. -/
def indentOf (first_line : List Char) : List Char :=
  match first_line with
  | [] => []
  | c0 :: _ => if c0 = ' ' || c0 = '\t' then
      first_line.takeWhile (fun c => decide (c = c0)) else []

/-- Embeds add_indentation of src/auto_pytabs/markdown_ext.py. -/
def add_indentation (code indentation : List Char) : List Char :=
  joinNL ((splitNL code).map (fun l => indentation ++ l))

/-- Embeds _build_tabs of src/auto_pytabs/markdown_ext.py; `fmtTitle`
abstracts the Python str.format application of the tab title template to
the version string major.minor. Each tab item is the f-string
tab-header line followed by the four-space indented head, code lines and
tail, and the items are joined with a newline. -/
def build_tabs (fmtTitle : Version → List Char)
    (versioned_code : List (Version × List Char))
    (head tail : List Char) : List Char :=
  joinNL (versioned_code.map (fun vc =>
    let lines := head :: (splitNL vc.2 ++ [tail])
    let code2 := joinNL (lines.map (fun l => ("    ".toList) ++ l))
    ("=== \"".toList) ++ fmtTitle vc.1 ++ ("\"\n".toList) ++ code2 ++
      ("\n".toList)))

/-- Embeds _convert_block of src/auto_pytabs/markdown_ext.py: strip the
indentation, destructure into head fence line, body lines and tail fence
line, join the body, version it through version_code with cache None (the
upgrade step is then a pure _run_ruff call), then either build tabs (more
than one version) or reassemble the single block, and restore the
indentation. The source failure modes (ValueError on blocks shorter than
two lines, IndexError on an empty version list, KeyError on the baseline
lookup) are embedded as none. -/
def convert_block (run_ruff : List Char → Nat → List Char)
    (make_cache_key : List Char → Version → List Char)
    (fmtTitle : Version → List Char)
    (block : List (List Char)) (versions : List Version) :
    Option (List Char) :=
  match strip_indentation block with
  | none => none
  | some (block2, indentation) =>
    match block2, versions with
    | head :: rest, v0 :: _ =>
      match rest.getLast? with
      | none => none
      | some tail =>
        let code := joinNL rest.dropLast
        match version_code
            (fun c v s => upgrade_code run_ruff make_cache_key c v s)
            code versions none with
        | none => none
        | some vcr =>
          if vcr.1.length > 1 then
            some (add_indentation
              (build_tabs fmtTitle vcr.1 head tail) indentation)
          else
            match dictLookup v0 vcr.1 with
            | none => none
            | some c0 =>
              some (add_indentation (joinNL [head, c0, tail]) indentation)
    | _, _ => none

/-- C4 (counterexample): the block with no body lines (head fence directly
followed by the closing fence) is captured by the extractor, yet converting
it with a single-version range and an identity rewrite yields head, an
empty line, then tail — the join of head, empty joined body and tail
inserts an extra blank line — so the original two-line block is not
reproduced byte-for-byte. -/
theorem convert_block_empty_body_not_roundtrip :
    convert_block (fun c _ => c) (fun _ _ => []) (fun _ => [])
      [("```py".toList), ("```".toList)] [(3, 7)] =
      some ("```py\n\n```".toList) ∧
    ¬ ("```py\n\n```".toList) = joinNL [("```py".toList), ("```".toList)] := by
  refine ⟨?_, ?_⟩ <;> decide

lemma startsList_append_drop (pre l : List Char)
    (h : startsList pre l = true) : pre ++ l.drop pre.length = l := by
  induction pre generalizing l with
  | nil => simp
  | cons a as ih =>
    cases l with
    | nil => simp [startsList] at h
    | cons b bs =>
      simp only [startsList, Bool.and_eq_true, decide_eq_true_eq] at h
      obtain ⟨hab, hrest⟩ := h
      subst hab
      simp only [List.cons_append, List.length_cons, List.drop_succ_cons]
      rw [ih bs hrest]

lemma removePre_of_starts (pre l : List Char) (h : startsList pre l = true) :
    removePre pre l = l.drop pre.length := by
  simp [removePre, h]

lemma ind_append_removePre (pre l : List Char)
    (h : startsList pre l = true) : pre ++ removePre pre l = l := by
  rw [removePre_of_starts pre l h]
  exact startsList_append_drop pre l h

lemma noNL_drop (l : List Char) (n : Nat) (h : noNL l = true) :
    noNL (l.drop n) = true := by
  simp only [noNL, List.all_eq_true] at h ⊢
  intro c hc
  exact h c (List.drop_subset n l hc)

lemma noNL_removePre (pre l : List Char) (h : noNL l = true) :
    noNL (removePre pre l) = true := by
  unfold removePre
  split
  · exact noNL_drop l pre.length h
  · exact h

lemma startsList_takeWhile (p : Char → Bool) (l : List Char) :
    startsList (l.takeWhile p) l = true := by
  induction l with
  | nil => rfl
  | cons c cs ih =>
    by_cases hp : p c
    · simp only [List.takeWhile_cons, hp, startsList, decide_eq_true_eq,
        Bool.and_eq_true]
      exact ⟨trivial, ih⟩
    · simp only [List.takeWhile_cons]
      rw [if_neg (by simp [hp])]
      rfl

lemma startsList_indentOf (f : List Char) :
    startsList (indentOf f) f = true := by
  cases f with
  | nil => rfl
  | cons c0 cs =>
    simp only [indentOf]
    split
    · exact startsList_takeWhile _ _
    · rfl

lemma indentOf_all_ws (f : List Char) :
    (indentOf f).all (fun c => c = ' ' || c = '\t') = true := by
  cases f with
  | nil => rfl
  | cons c0 cs =>
    simp only [indentOf]
    split
    · next hc0 =>
      simp only [List.all_eq_true]
      intro c hc
      have := List.mem_takeWhile_imp hc
      simp only [decide_eq_true_eq] at this
      subst this
      exact hc0
    · rfl

lemma startsList_nil_ne (pat : List Char) (hp : pat ≠ []) :
    startsList pat [] = false := by
  cases pat with
  | nil => exact absurd rfl hp
  | cons a as => rfl

lemma hasSub_ne_nil (pat l : List Char) (hp : pat ≠ [])
    (h : hasSub pat l = true) : l ≠ [] := by
  intro he
  subst he
  simp only [hasSub] at h
  rw [startsList_nil_ne pat hp] at h
  exact Bool.false_ne_true h

lemma startsList_exists (pre l : List Char) (h : startsList pre l = true) :
    ∃ w, l = pre ++ w :=
  ⟨l.drop pre.length, (startsList_append_drop pre l h).symm⟩

lemma hasSub_exists (pat l : List Char) (h : hasSub pat l = true) :
    ∃ u w, l = u ++ pat ++ w := by
  induction l with
  | nil =>
    simp only [hasSub] at h
    cases pat with
    | nil => exact ⟨[], [], rfl⟩
    | cons a as => simp [startsList] at h
  | cons c cs ih =>
    simp only [hasSub, Bool.or_eq_true] at h
    rcases h with h | h
    · obtain ⟨w, hw⟩ := startsList_exists pat (c :: cs) h
      exact ⟨[], w, by simpa using hw⟩
    · obtain ⟨u, w, hw⟩ := ih h
      exact ⟨c :: u, w, by simp [hw]⟩

lemma joinNL_cons (a : List Char) (ls : List (List Char)) (h : ls ≠ []) :
    joinNL (a :: ls) = a ++ '\n' :: joinNL ls := by
  cases ls with
  | nil => exact absurd rfl h
  | cons b bs => rfl

lemma joinNL_append_singleton (bs : List (List Char)) (t : List Char)
    (h : bs ≠ []) : joinNL (bs ++ [t]) = joinNL bs ++ '\n' :: t := by
  induction bs with
  | nil => exact absurd rfl h
  | cons b bs2 ih =>
    cases bs2 with
    | nil => rfl
    | cons b2 bs3 =>
      have hih : joinNL ((b2 :: bs3) ++ [t]) = joinNL (b2 :: bs3) ++ '\n' :: t :=
        ih (by simp)
      show b ++ '\n' :: joinNL ((b2 :: bs3) ++ [t]) =
        (b ++ '\n' :: joinNL (b2 :: bs3)) ++ '\n' :: t
      rw [hih]
      simp

lemma splitNL_single (l : List Char) (hn : noNL l = true) (hne : l ≠ []) :
    splitNL l = [l] := by
  induction l with
  | nil => exact absurd rfl hne
  | cons c cs ih =>
    simp only [noNL, List.all_cons, Bool.and_eq_true, decide_eq_true_eq] at hn
    simp only [splitNL, if_neg hn.1]
    cases cs with
    | nil => rfl
    | cons c2 cs2 =>
      rw [ih (by simpa [noNL] using hn.2) (by simp)]

lemma splitNL_cons_line (a r : List Char) (ha : noNL a = true) :
    splitNL (a ++ '\n' :: r) = a :: splitNL r := by
  induction a with
  | nil => simp [splitNL]
  | cons c cs ih =>
    simp only [noNL, List.all_cons, Bool.and_eq_true, decide_eq_true_eq] at ha
    have hcs := ih (by simpa [noNL] using ha.2)
    simp only [List.cons_append, splitNL, if_neg ha.1, List.append_eq, hcs]

lemma splitNL_joinNL (init : List (List Char)) (lst : List Char)
    (hnl : ∀ l ∈ init, noNL l = true) (hlast : noNL lst = true)
    (hne : lst ≠ []) :
    splitNL (joinNL (init ++ [lst])) = init ++ [lst] := by
  induction init with
  | nil =>
    simp only [List.nil_append]
    exact splitNL_single lst hlast hne
  | cons a as ih =>
    have h1 : as ++ [lst] ≠ [] := by simp
    rw [List.cons_append, joinNL_cons _ _ h1,
      splitNL_cons_line a _ (hnl a (List.mem_cons_self a as)),
      ih (fun l hl => hnl l (List.mem_cons_of_mem a hl))]

lemma map_id_on {α : Type} (f : α → α) (L : List α)
    (h : ∀ x ∈ L, f x = x) : L.map f = L := by
  induction L with
  | nil => rfl
  | cons a as ih =>
    simp only [List.map_cons]
    rw [h a (List.mem_cons_self a as),
      ih (fun x hx => h x (List.mem_cons_of_mem a hx))]

/-- C4 (amended): for every block captured by the extractor whose head
fence and tail fence enclose at least one body line, where every line
starts with the indentation prefix computed from the head line, converting
it with a single-version range whose rewrite leaves the code unchanged
reproduces the original fenced block byte-for-byte (splitting the rendered
output on newlines restores the head, every body line, the tail, and every
stripped indentation prefix exactly). Without those two provisos the
round-trip can differ: a block with no body lines gains a blank line, and a
line not starting with the common indentation prefix gains that prefix. -/
theorem convert_block_roundtrip
    (run_ruff : List Char → Nat → List Char)
    (make_cache_key : List Char → Version → List Char)
    (fmtTitle : Version → List Char)
    (h t : List Char) (body : List (List Char)) (v : Version)
    (hr : ∀ c n, run_ruff c n = c)
    (hopen : hasSub openTok h = true)
    (hclose : hasSub closeTok t = true)
    (hbody : body ≠ [])
    (hpre : ∀ l ∈ body ++ [t], startsList (indentOf h) l = true)
    (hnl : ∀ l ∈ h :: body ++ [t], noNL l = true) :
    convert_block run_ruff make_cache_key fmtTitle (h :: body ++ [t]) [v] =
      some (joinNL (h :: body ++ [t])) ∧
    splitNL (joinNL (h :: body ++ [t])) = h :: body ++ [t] := by
  have hhne : h ≠ [] := hasSub_ne_nil openTok h (by decide) hopen
  have htne : t ≠ [] := hasSub_ne_nil closeTok t (by decide) hclose
  have hnlh : noNL h = true := hnl h (by simp)
  have hnlt : noNL t = true := hnl t (by simp)
  have hnlb : ∀ l ∈ body, noNL l = true := fun l hl => hnl l (by simp [hl])
  have hsh : startsList (indentOf h) h = true := startsList_indentOf h
  have hst : startsList (indentOf h) t = true := hpre t (by simp)
  have htp : removePre (indentOf h) t ≠ [] := by
    intro he
    have ht2 : t = indentOf h := by
      have hx := ind_append_removePre (indentOf h) t hst
      rw [he, List.append_nil] at hx
      exact hx.symm
    obtain ⟨u, w, hw⟩ := hasSub_exists closeTok t hclose
    have hall : t.all (fun c => c = ' ' || c = '\t') = true := by
      rw [ht2]
      exact indentOf_all_ws h
    rw [hw] at hall
    simp only [List.all_append, Bool.and_eq_true] at hall
    exact absurd hall.1.2 (by decide)
  have hsplit0 : splitNL (joinNL (h :: body ++ [t])) = h :: body ++ [t] := by
    have hx := splitNL_joinNL (h :: body) t
      (fun l hl => by
        rcases List.mem_cons.mp hl with he | hm
        · subst he; exact hnlh
        · exact hnlb l hm) hnlt htne
    simpa using hx
  refine ⟨?_, hsplit0⟩
  have hstrip : strip_indentation (h :: body ++ [t]) =
      some ((h :: body ++ [t]).map (removePre (indentOf h)), indentOf h) := by
    cases h with
    | nil => exact absurd rfl hhne
    | cons c0 cs => rfl
  have hmap : (h :: body ++ [t]).map (removePre (indentOf h)) =
      removePre (indentOf h) h ::
        (body.map (removePre (indentOf h)) ++ [removePre (indentOf h) t]) := by
    simp
  have hbodyp : body.map (removePre (indentOf h)) ≠ [] := by
    intro he
    exact hbody (List.map_eq_nil_iff.mp he)
  have hvc : version_code
      (fun c v2 s => upgrade_code run_ruff make_cache_key c v2 s)
      (joinNL (body.map (removePre (indentOf h)))) [v] none =
      some ([(v, joinNL (body.map (removePre (indentOf h))))], none) := by
    simp [version_code, vcGo, upgrade_code, hr]
  have hjoin3 : joinNL (removePre (indentOf h) h ::
      (body.map (removePre (indentOf h)) ++ [removePre (indentOf h) t])) =
      joinNL [removePre (indentOf h) h,
        joinNL (body.map (removePre (indentOf h))),
        removePre (indentOf h) t] := by
    rw [joinNL_cons _ _ (by simp),
      joinNL_append_singleton _ _ hbodyp]
    rfl
  have hmapped : ∀ l ∈ h :: body ++ [t],
      startsList (indentOf h) l = true := by
    intro l hl
    rcases List.mem_cons.mp hl with he | hm
    · subst he; exact hsh
    · exact hpre l hm
  have hsplitp : splitNL (joinNL ((h :: body ++ [t]).map
      (removePre (indentOf h)))) =
      (h :: body ++ [t]).map (removePre (indentOf h)) := by
    have hshape : (h :: body ++ [t]).map (removePre (indentOf h)) =
        ((h :: body).map (removePre (indentOf h))) ++
          [removePre (indentOf h) t] := by
      simp
    rw [hshape]
    refine splitNL_joinNL _ _ ?_ (noNL_removePre _ _ hnlt) htp
    intro l hl
    obtain ⟨l0, hl0, he⟩ := List.mem_map.mp hl
    subst he
    refine noNL_removePre _ _ ?_
    rcases List.mem_cons.mp hl0 with he | hm
    · subst he; exact hnlh
    · exact hnl l0 (by simp [hm])
  have haddind : add_indentation
      (joinNL ((h :: body ++ [t]).map (removePre (indentOf h))))
      (indentOf h) = joinNL (h :: body ++ [t]) := by
    unfold add_indentation
    rw [hsplitp, List.map_map]
    rw [map_id_on ((fun l => indentOf h ++ l) ∘ removePre (indentOf h)) _
      (fun l hl => ind_append_removePre (indentOf h) l (hmapped l hl))]
  simp only [convert_block]
  rw [hstrip]
  simp only [hmap]
  rw [List.getLast?_concat, List.dropLast_concat]
  simp only [hvc]
  rw [if_neg (by simp)]
  simp only [dictLookup, ite_true, eq_self_iff_true]
  rw [← hjoin3, ← hmap, haddind]

/-- Witness: C4 amended applied to the block with head fence, one body
line and tail fence, identity rewrite and the single version (3, 7). -/
theorem convert_block_roundtrip_witness :
    convert_block (fun c _ => c) (fun _ _ => []) (fun _ => [])
      (("```py".toList) :: [("x = 1".toList)] ++ [("```".toList)]) [(3, 7)] =
      some (joinNL
        (("```py".toList) :: [("x = 1".toList)] ++ [("```".toList)])) ∧
    splitNL (joinNL
        (("```py".toList) :: [("x = 1".toList)] ++ [("```".toList)])) =
      ("```py".toList) :: [("x = 1".toList)] ++ [("```".toList)] :=
  convert_block_roundtrip (fun c _ => c) (fun _ _ => []) (fun _ => [])
    ("```py".toList) ("```".toList) [("x = 1".toList)] (3, 7)
    (fun _ _ => rfl) (by decide) (by decide) (by decide) (by decide)
    (by decide)

/-- The auto_pytabs_default_tab configuration values. -/
inductive DefaultTabStrategy : Type
  | highest : DefaultTabStrategy
  | lowest : DefaultTabStrategy
deriving DecidableEq

/-- Structured form of one rendered tab-item directive of
UpgradeMixin._create_tabs in src/auto_pytabs/sphinx_ext.py: the version
(whose major.minor string becomes the sync key and the formatted title),
the code body, and whether the selected option is set (rendered by
_render_directive only when not False). -/
structure TabItem where
  version : Version
  code : List Char
  selected : Bool
deriving DecidableEq

/-- Structured form of the output of _create_tabs: either a single
code-block directive or a tab-set of tab-items. -/
inductive TabsOut : Type
  | single : List Char → TabsOut
  | tabSet : List TabItem → TabsOut
deriving DecidableEq

/-- Embeds UpgradeMixin._create_tabs of src/auto_pytabs/sphinx_ext.py at
the structure level: the rst string rendering of _render_directive is
abstracted away, keeping exactly which tabs are emitted, in which order,
with which body and which selected flag. With one entry the source emits a
single code-block from popitem() (the last item). Otherwise the default
selected version is versions[-1] for strategy highest and versions[0]
otherwise (insertion order of the mapping), the iteration order is the
reversed dict when reverse_order is set, and each tab-item carries
`selected: version == default_selected_version`. An empty mapping raises
IndexError on versions[-1], embedded as none. -/
def create_tabs (versioned_code : List (Version × List Char))
    (default_tab_strategy : DefaultTabStrategy) (reverse_order : Bool) :
    Option TabsOut :=
  if versioned_code.length = 1 then
    (versioned_code.getLast?).map (fun p => TabsOut.single p.2)
  else
    match versioned_code.map Prod.fst with
    | [] => none
    | v0 :: vs =>
      let default_selected_version :=
        if default_tab_strategy = DefaultTabStrategy.highest then
          (v0 :: vs).getLast (by simp)
        else v0
      let vc2 := if reverse_order then versioned_code.reverse
        else versioned_code
      some (TabsOut.tabSet (vc2.map (fun p =>
        TabItem.mk p.1 p.2 (decide (p.1 = default_selected_version)))))

lemma filter_key_nil {β : Type} (vc : List (Version × β)) (dsel : Version)
    (h : dsel ∉ vc.map Prod.fst) :
    vc.filter (fun p => decide (p.1 = dsel)) = [] := by
  induction vc with
  | nil => rfl
  | cons p t ih =>
    simp only [List.map_cons, List.mem_cons] at h
    push_neg at h
    simp only [List.filter_cons]
    rw [if_neg (by simpa using fun he => h.1 he.symm)]
    exact ih h.2

lemma filter_key_once {β : Type} (vc : List (Version × β)) (dsel : Version)
    (hnd : (vc.map Prod.fst).Nodup) (hmem : dsel ∈ vc.map Prod.fst) :
    (vc.filter (fun p => decide (p.1 = dsel))).length = 1 := by
  induction vc with
  | nil => simp at hmem
  | cons p t ih =>
    simp only [List.map_cons, List.nodup_cons] at hnd
    simp only [List.map_cons, List.mem_cons] at hmem
    simp only [List.filter_cons]
    by_cases hp : p.1 = dsel
    · rw [if_pos (by simpa using hp)]
      have hnil : t.filter (fun p => decide (p.1 = dsel)) = [] :=
        filter_key_nil t dsel (hp ▸ hnd.1)
      simp [hnil]
    · rw [if_neg (by simpa using hp)]
      rcases hmem with he | hm
      · exact absurd he.symm hp
      · exact ih hnd.2 hm

lemma pairwise_vlt_getLast (l : List Version) (hne : l ≠ [])
    (hp : l.Pairwise vlt) (k : Version) (hk : k ∈ l)
    (hne2 : k ≠ l.getLast hne) : vlt k (l.getLast hne) := by
  induction l with
  | nil => exact absurd rfl hne
  | cons a t ih =>
    cases t with
    | nil =>
      simp only [List.mem_singleton] at hk
      subst hk
      exact absurd (by simp [List.getLast]) hne2
    | cons b bs =>
      have hlast : (a :: b :: bs).getLast (by simp) =
          (b :: bs).getLast (by simp) := by
        simp [List.getLast]
      rw [hlast] at hne2 ⊢
      rcases List.mem_cons.mp hk with he | hm
      · subst he
        exact (List.pairwise_cons.mp hp).1 _ (List.getLast_mem (by simp))
      · exact ih (by simp) (List.pairwise_cons.mp hp).2 hm hne2

lemma pairwise_vlt_head (v0 : Version) (vs : List Version)
    (hp : (v0 :: vs).Pairwise vlt) (k : Version) (hk : k ∈ v0 :: vs)
    (hne : k ≠ v0) : vlt v0 k := by
  rcases List.mem_cons.mp hk with he | hm
  · exact absurd he hne
  · exact (List.pairwise_cons.mp hp).1 k hm

/-- C9: for every versioned-code mapping with more than one entry whose
keys are (as the data-model invariant guarantees) strictly increasing in
insertion order, the tab renderer emits one tab per entry — in insertion
order, or descending insertion order when reverse_order is set — marks
exactly one tab as the pre-selected default, and the marked tab is the
highest version key when default_tab_strategy is highest and the lowest
when it is lowest, independent of reverse_order. -/
theorem create_tabs_default_selection
    (vc : List (Version × List Char)) (strategy : DefaultTabStrategy)
    (rev : Bool) (hlen : 1 < vc.length)
    (hsort : (vc.map Prod.fst).Pairwise vlt) :
    ∃ ts, create_tabs vc strategy rev = some (TabsOut.tabSet ts) ∧
      (ts.filter (fun t => t.selected)).length = 1 ∧
      (∀ t ∈ ts, t.selected = true →
        t.version ∈ vc.map Prod.fst ∧
        (∀ k ∈ vc.map Prod.fst, k ≠ t.version →
          (if strategy = DefaultTabStrategy.highest then vlt k t.version
           else vlt t.version k))) ∧
      ts.map (fun t => (t.version, t.code)) =
        (if rev then vc.reverse else vc) := by
  have hnd : (vc.map Prod.fst).Nodup :=
    hsort.imp (fun hab => by
      intro he
      exact vlt_irrefl _ (he ▸ hab))
  cases vc with
  | nil => simp at hlen
  | cons p rest =>
    have hlen1 : ¬ (p :: rest).length = 1 := by
      simp only [List.length_cons] at hlen ⊢
      omega
    refine ⟨((if rev then (p :: rest).reverse else (p :: rest)).map
      (fun q => TabItem.mk q.1 q.2 (decide (q.1 =
        (if strategy = DefaultTabStrategy.highest then
          (p.1 :: rest.map Prod.fst).getLast (by simp)
        else p.1))))), ?_, ?_, ?_, ?_⟩
    · simp only [create_tabs, if_neg hlen1, List.map_cons]
    · have hdmem : (if strategy = DefaultTabStrategy.highest then
          (p.1 :: rest.map Prod.fst).getLast (by simp)
        else p.1) ∈ (p :: rest).map Prod.fst := by
        split
        · exact List.getLast_mem (by simp)
        · simp
      rw [List.filter_map]
      have hcomp : ((fun t : TabItem => t.selected) ∘
          (fun q : Version × List Char => TabItem.mk q.1 q.2 (decide (q.1 =
            (if strategy = DefaultTabStrategy.highest then
              (p.1 :: rest.map Prod.fst).getLast (by simp)
            else p.1))))) =
          (fun q : Version × List Char => decide (q.1 =
            (if strategy = DefaultTabStrategy.highest then
              (p.1 :: rest.map Prod.fst).getLast (by simp)
            else p.1))) := rfl
      rw [List.length_map, hcomp]
      by_cases hrev : rev
      · simp only [if_pos hrev]
        rw [List.filter_reverse, List.length_reverse]
        exact filter_key_once _ _ hnd hdmem
      · simp only [if_neg hrev]
        exact filter_key_once _ _ hnd hdmem
    · intro t ht hsel
      obtain ⟨q, hq, he⟩ := List.mem_map.mp ht
      have hver : t.version = q.1 := by rw [← he]
      have hts : t.selected = decide (q.1 =
          (if strategy = DefaultTabStrategy.highest then
            (p.1 :: rest.map Prod.fst).getLast (by simp)
          else p.1)) := by rw [← he]
      rw [hts] at hsel
      have hqd : q.1 = (if strategy = DefaultTabStrategy.highest then
          (p.1 :: rest.map Prod.fst).getLast (by simp)
        else p.1) := of_decide_eq_true hsel
      have hvd : t.version = (if strategy = DefaultTabStrategy.highest then
          (p.1 :: rest.map Prod.fst).getLast (by simp)
        else p.1) := hver.trans hqd
      have hdmem : (if strategy = DefaultTabStrategy.highest then
          (p.1 :: rest.map Prod.fst).getLast (by simp)
        else p.1) ∈ (p :: rest).map Prod.fst := by
        split
        · exact List.getLast_mem (by simp)
        · simp
      constructor
      · rw [hvd]
        exact hdmem
      · intro k hk hkne
        rw [hvd] at hkne ⊢
        split
        · next hstrat =>
          rw [if_pos hstrat] at hkne
          exact pairwise_vlt_getLast _ (by simp) hsort k hk hkne
        · next hstrat =>
          rw [if_neg hstrat] at hkne
          exact pairwise_vlt_head p.1 (rest.map Prod.fst) hsort k hk hkne
    · rw [List.map_map]
      have hcomp : ((fun t : TabItem => (t.version, t.code)) ∘
          (fun q : Version × List Char => TabItem.mk q.1 q.2 (decide (q.1 =
            (if strategy = DefaultTabStrategy.highest then
              (p.1 :: rest.map Prod.fst).getLast (by simp)
            else p.1))))) =
          (fun q : Version × List Char => (q.1, q.2)) := rfl
      rw [hcomp]
      by_cases hrev : rev
      · simp [hrev]
      · simp [hrev]

/-- Witness: C9 applied to a two-entry mapping with strategy highest and
reverse_order set. -/
theorem create_tabs_default_selection_witness :
    1 < ([(((3, 7) : Version), ("a".toList)),
      (((3, 9) : Version), ("b".toList))]).length ∧
    (([(((3, 7) : Version), ("a".toList)),
      (((3, 9) : Version), ("b".toList))]).map Prod.fst).Pairwise vlt ∧
    ∃ ts, create_tabs
        [(((3, 7) : Version), ("a".toList)),
          (((3, 9) : Version), ("b".toList))]
        DefaultTabStrategy.highest true = some (TabsOut.tabSet ts) ∧
      (ts.filter (fun t => t.selected)).length = 1 ∧
      (∀ t ∈ ts, t.selected = true →
        t.version ∈ ([(((3, 7) : Version), ("a".toList)),
          (((3, 9) : Version), ("b".toList))]).map Prod.fst ∧
        (∀ k ∈ ([(((3, 7) : Version), ("a".toList)),
            (((3, 9) : Version), ("b".toList))]).map Prod.fst,
          k ≠ t.version →
          (if DefaultTabStrategy.highest = DefaultTabStrategy.highest then
            vlt k t.version else vlt t.version k))) ∧
      ts.map (fun t => (t.version, t.code)) =
        (if true then ([(((3, 7) : Version), ("a".toList)),
          (((3, 9) : Version), ("b".toList))]).reverse
         else [(((3, 7) : Version), ("a".toList)),
          (((3, 9) : Version), ("b".toList))]) :=
  ⟨by decide, by decide,
   create_tabs_default_selection
    [(((3, 7) : Version), ("a".toList)), (((3, 9) : Version), ("b".toList))]
    DefaultTabStrategy.highest true (by decide) (by decide)⟩

/-- Predecessor line lookup of the extractor: Python `lines[start - 1]`,
which for start = 0 is `lines[-1]`, the last line of the document. -/
def pyPred (lines : List (List Char)) (start : Nat) : List Char :=
  if start = 0 then lines.getLastD [] else lines.getD (start - 1) []

/-- State of the _extract_code_blocks loop of
src/auto_pytabs/markdown_ext.py. -/
structure ExtSt where
  in_block : Bool
  enabled : Bool
  start : Nat
  new_lines : List (List Char)
  to_transform : List (Nat × List (List Char))
deriving DecidableEq

/-- Effect of a parsed directive on the enabled flag. -/
def applyDir (d : Option Directive) (enabled : Bool) : Bool :=
  match d with
  | some Directive.disable => false
  | some Directive.enable => true
  | _ => enabled

/-- One iteration of the _extract_code_blocks loop at index i on the given
line: parse the directive (the RuntimeError aborts the run), update the
enabled flag, then dispatch on RGX_BLOCK_TOKENS. Branch 1 (the line
contains the py fence token) opens a block and records the start index —
also when already inside one. Branch 2 (the line contains the bare fence
token) while inside a block closes it, slices the block
`lines[start : i + 1]` out of the document, parses `lines[start - 1]`
against the disable-block directive, and either queues the block under the
current output length while pushing one placeholder line, or copies the
block verbatim; branch 2 outside a block copies the line. A non-matching
line is copied only outside blocks and when it is not a directive
comment. -/
def extractStep (lines : List (List Char)) (i : Nat) (line : List Char)
    (s : ExtSt) : Except (List Char) ExtSt :=
  match get_pytabs_directive line with
  | Except.error e => Except.error e
  | Except.ok d =>
    let is_comment_line := d.isSome
    let enabled := applyDir d s.enabled
    if hasSub openTok line then
      Except.ok (ExtSt.mk true enabled i s.new_lines s.to_transform)
    else if hasSub closeTok line then
      if s.in_block then
        match get_pytabs_directive (pyPred lines s.start) with
        | Except.error e => Except.error e
        | Except.ok block_directive =>
          let block := (lines.drop s.start).take (i + 1 - s.start)
          if enabled = true ∧
              ¬ block_directive = some Directive.disableBlock then
            Except.ok (ExtSt.mk false enabled s.start
              (s.new_lines ++ [[]])
              (s.to_transform ++ [(s.new_lines.length, block)]))
          else
            Except.ok (ExtSt.mk false enabled s.start
              (s.new_lines ++ block) s.to_transform)
      else
        Except.ok (ExtSt.mk s.in_block enabled s.start
          (s.new_lines ++ [line]) s.to_transform)
    else
      if s.in_block = false ∧ is_comment_line = false then
        Except.ok (ExtSt.mk s.in_block enabled s.start
          (s.new_lines ++ [line]) s.to_transform)
      else
        Except.ok (ExtSt.mk s.in_block enabled s.start
          s.new_lines s.to_transform)

/-- The loop of _extract_code_blocks over the remaining lines, starting at
index i. -/
def extractGo (lines : List (List Char)) :
    Nat → List (List Char) → ExtSt → Except (List Char) ExtSt
  | _, [], s => Except.ok s
  | i, l :: rest, s =>
    match extractStep lines i l s with
    | Except.error e => Except.error e
    | Except.ok s2 => extractGo lines (i + 1) rest s2

/-- Initial loop state of _extract_code_blocks. -/
def extInit : ExtSt := ⟨false, true, 0, [], []⟩

/-- Embeds _extract_code_blocks of src/auto_pytabs/markdown_ext.py: the
output skeleton (with one empty placeholder line per queued block) and the
queued blocks keyed by their placeholder position. -/
def extract_code_blocks (lines : List (List Char)) :
    Except (List Char) (List (List Char) × List (Nat × List (List Char))) :=
  match extractGo lines 0 lines extInit with
  | Except.error e => Except.error e
  | Except.ok s => Except.ok (s.new_lines, s.to_transform)

/-- The directive carried by a line, disregarding the error case (which
aborts the whole extraction). -/
def dirOf (line : List Char) : Option Directive :=
  match get_pytabs_directive line with
  | Except.ok d => d
  | Except.error _ => none

/-- True when directive parsing of the line does not raise. -/
def dirParses (line : List Char) : Bool :=
  match get_pytabs_directive line with
  | Except.ok _ => true
  | Except.error _ => false

/-- The enabled flag after the directives of the first n lines. -/
def enabledUpTo (lines : List (List Char)) (n : Nat) : Bool :=
  (lines.take n).foldl (fun e l => applyDir (dirOf l) e) true

/-- The (start, close) index spans of the fenced blocks the scanning state
machine closes, by a direct recursion: an opening line (re)records the
start, a bare closing line inside a block emits the span. -/
def fenceSpansGo : Nat → List (List Char) → Option Nat → List (Nat × Nat)
  | _, [], _ => []
  | i, l :: rest, st =>
    if hasSub openTok l then fenceSpansGo (i + 1) rest (some i)
    else if hasSub closeTok l then
      match st with
      | some s => (s, i) :: fenceSpansGo (i + 1) rest none
      | none => fenceSpansGo (i + 1) rest none
    else fenceSpansGo (i + 1) rest st

/-- The spans of the whole document. -/
def fenceSpans (lines : List (List Char)) : List (Nat × Nat) :=
  fenceSpansGo 0 lines none

/-- Whether the extractor queues the block with the given span for
conversion: the enabled flag at closing time is set, and the line
preceding the start (the last line of the document when the block starts
at line 0) is not a disable-block directive. -/
def keepSpan (lines : List (List Char)) (p : Nat × Nat) : Bool :=
  enabledUpTo lines (p.2 + 1) &&
    ! (decide (dirOf (pyPred lines p.1) = some Directive.disableBlock))

/-- The raw lines of a span. -/
def blockOf (lines : List (List Char)) (p : Nat × Nat) :
    List (List Char) :=
  (lines.drop p.1).take (p.2 + 1 - p.1)

/-- C5 (counterexample): in the document whose three lines are an opening
fence, a closing fence and — as the last line — a disable-block directive,
no directive precedes the block (the block starts at the first line) and
no disable or enable directive occurs at all, so the claim requires the
block to be converted; but the extractor checks `lines[start - 1]`, which
for a block starting at line 0 is Python `lines[-1]`, the last line of the
document — the disable-block directive — so the block is copied verbatim
and nothing is queued for conversion. -/
theorem extract_disable_block_wraps_to_last_line :
    extract_code_blocks [("```py".toList), ("```".toList),
      ("<!-- autopytabs: disable-block -->".toList)] =
      Except.ok ([("```py".toList), ("```".toList)], []) ∧
    (([("```py".toList), ("```".toList)]).all
      (fun l => decide (dirOf l = none))) = true ∧
    dirOf ("<!-- autopytabs: disable-block -->".toList) =
      some Directive.disableBlock := by
  refine ⟨by rfl, by decide, by decide⟩

lemma drop_cons_facts (lines : List (List Char)) (i : Nat)
    (l : List Char) (rest : List (List Char))
    (h : lines.drop i = l :: rest) :
    lines.take (i + 1) = lines.take i ++ [l] ∧
    lines.drop (i + 1) = rest := by
  have hget : lines[i]? = some l := by
    have h0 : (lines.drop i)[0]? = some l := by rw [h]; simp
    rw [List.getElem?_drop] at h0
    simpa using h0
  constructor
  · rw [List.take_succ, hget]
    rfl
  · have h2 := congrArg (List.drop 1) h
    rw [List.drop_drop] at h2
    simpa using h2

lemma enabledUpTo_succ (lines : List (List Char)) (i : Nat) (l : List Char)
    (h : lines.take (i + 1) = lines.take i ++ [l]) :
    enabledUpTo lines (i + 1) = applyDir (dirOf l) (enabledUpTo lines i) := by
  unfold enabledUpTo
  rw [h, List.foldl_append]
  rfl

/-- Loop invariant relating the mid-run extraction state to the reference
span recursion: the blocks queued by the rest of the run are exactly the
kept spans of the rest of the document. -/
lemma extractGo_characterization (lines : List (List Char)) :
    ∀ (rest : List (List Char)) (i : Nat) (s sf : ExtSt),
    rest = lines.drop i →
    s.enabled = enabledUpTo lines i →
    extractGo lines i rest s = Except.ok sf →
    sf.to_transform.map Prod.snd =
      s.to_transform.map Prod.snd ++
        ((fenceSpansGo i rest
          (if s.in_block = true then some s.start else none)).filter
            (keepSpan lines)).map (blockOf lines) := by
  intro rest
  induction rest with
  | nil =>
    intro i s sf hrest hen hrun
    simp only [extractGo] at hrun
    cases hrun
    simp [fenceSpansGo]
  | cons l rest2 ih =>
    intro i s sf hrest hen hrun
    obtain ⟨htake, hdrop⟩ := drop_cons_facts lines i l rest2 hrest.symm
    have hstep : enabledUpTo lines (i + 1) =
        applyDir (dirOf l) (enabledUpTo lines i) :=
      enabledUpTo_succ lines i l htake
    simp only [extractGo] at hrun
    cases hdir : get_pytabs_directive l with
    | error e =>
      simp only [extractStep, hdir] at hrun
      exact Except.noConfusion hrun
    | ok d =>
      have hdof : dirOf l = d := by simp [dirOf, hdir]
      have hen2 : applyDir d s.enabled = enabledUpTo lines (i + 1) := by
        rw [hen, ← hdof, ← hstep]
      simp only [extractStep, hdir] at hrun
      by_cases hopen : hasSub openTok l = true
      · simp only [if_pos hopen] at hrun
        have hres := ih (i + 1)
          (ExtSt.mk true (applyDir d s.enabled) i s.new_lines s.to_transform)
          sf hdrop.symm hen2 hrun
        rw [hres]
        simp only [fenceSpansGo, if_pos hopen]
        simp
      · simp only [if_neg hopen] at hrun
        by_cases hclose : hasSub closeTok l = true
        · simp only [if_pos hclose] at hrun
          by_cases hin : s.in_block = true
          · simp only [if_pos hin] at hrun
            cases hbd : get_pytabs_directive (pyPred lines s.start) with
            | error e =>
              simp only [hbd] at hrun
              exact Except.noConfusion hrun
            | ok bd =>
              simp only [hbd] at hrun
              have hbdof : dirOf (pyPred lines s.start) = bd := by
                simp [dirOf, hbd]
              have hkeep : keepSpan lines (s.start, i) =
                  (applyDir d s.enabled &&
                    ! decide (bd = some Directive.disableBlock)) := by
                simp only [keepSpan, hbdof]
                rw [hstep, hdof, ← hen]
              by_cases hcond : applyDir d s.enabled = true ∧
                  ¬ bd = some Directive.disableBlock
              · simp only [if_pos hcond] at hrun
                have hres := ih (i + 1)
                  (ExtSt.mk false (applyDir d s.enabled) s.start
                    (s.new_lines ++ [[]])
                    (s.to_transform ++
                      [(s.new_lines.length,
                        (lines.drop s.start).take (i + 1 - s.start))]))
                  sf hdrop.symm hen2 hrun
                rw [hres]
                simp only [fenceSpansGo, if_neg hopen, if_pos hclose,
                  if_pos hin]
                rw [List.filter_cons]
                have hkt : keepSpan lines (s.start, i) = true := by
                  rw [hkeep, hcond.1]
                  simp [hcond.2]
                simp [hkt, blockOf, List.map_append]
              · simp only [if_neg hcond] at hrun
                have hres := ih (i + 1)
                  (ExtSt.mk false (applyDir d s.enabled) s.start
                    (s.new_lines ++
                      ((lines.drop s.start).take (i + 1 - s.start)))
                    s.to_transform)
                  sf hdrop.symm hen2 hrun
                rw [hres]
                simp only [fenceSpansGo, if_neg hopen, if_pos hclose,
                  if_pos hin]
                rw [List.filter_cons]
                have hkf : keepSpan lines (s.start, i) = false := by
                  rw [hkeep]
                  by_cases hA : applyDir d s.enabled = true
                  · have hB : bd = some Directive.disableBlock := by
                      by_contra hB
                      exact hcond ⟨hA, hB⟩
                    simp [hB]
                  · have hAf : applyDir d s.enabled = false :=
                      Bool.eq_false_iff.mpr hA
                    simp [hAf]
                simp [hkf]
          · simp only [if_neg hin] at hrun
            have hres := ih (i + 1)
              (ExtSt.mk s.in_block (applyDir d s.enabled) s.start
                (s.new_lines ++ [l]) s.to_transform)
              sf hdrop.symm hen2 hrun
            rw [hres]
            simp only [fenceSpansGo, if_neg hopen, if_pos hclose]
            have hinf : s.in_block = false := by
              revert hin
              cases s.in_block <;> simp
            simp [hinf]
        · simp only [if_neg hclose] at hrun
          by_cases hcomm : s.in_block = false ∧ d.isSome = false
          · simp only [if_pos hcomm] at hrun
            have hres := ih (i + 1)
              (ExtSt.mk s.in_block (applyDir d s.enabled) s.start
                (s.new_lines ++ [l]) s.to_transform)
              sf hdrop.symm hen2 hrun
            rw [hres]
            simp only [fenceSpansGo, if_neg hopen, if_neg hclose]
          · simp only [if_neg hcomm] at hrun
            have hres := ih (i + 1)
              (ExtSt.mk s.in_block (applyDir d s.enabled) s.start
                s.new_lines s.to_transform)
              sf hdrop.symm hen2 hrun
            rw [hres]
            simp only [fenceSpansGo, if_neg hopen, if_neg hclose]

/-- C5 (amended): for every document that extracts without a directive
error, the blocks queued for conversion are exactly the closed fenced
spans that are enabled at closing time and whose predecessor line is not a
disable-block directive — where the predecessor of a block starting at
line 0 wraps around to the last line of the document (Python
`lines[start - 1]`). Hence a disable-block directive immediately preceding
a fence-open suppresses exactly that block; a block starting at the first
line is additionally suppressed exactly when the last document line is a
disable-block directive; and a disable directive followed by an enable
directive suppresses exactly the blocks closed strictly between them,
through the enabled flag. -/
theorem extract_blocks_conversion_characterization
    (lines : List (List Char)) (nl : List (List Char))
    (tt : List (Nat × List (List Char)))
    (h : extract_code_blocks lines = Except.ok (nl, tt)) :
    tt.map Prod.snd =
      ((fenceSpans lines).filter (keepSpan lines)).map (blockOf lines) := by
  unfold extract_code_blocks at h
  cases hgo : extractGo lines 0 lines extInit with
  | error e =>
    rw [hgo] at h
    exact Except.noConfusion h
  | ok s =>
    rw [hgo] at h
    have h2 : s.new_lines = nl ∧ s.to_transform = tt := by
      cases h
      exact ⟨rfl, rfl⟩
    have hchar := extractGo_characterization lines lines 0 extInit s
      (by simp) (by rfl) hgo
    rw [← h2.2, hchar]
    simp [extInit, fenceSpans]

/-- Witness: the C5 characterization applied to the three-line document
consisting of one enabled fenced block. -/
theorem extract_blocks_conversion_characterization_witness :
    extract_code_blocks [("```py".toList), ("x = 1".toList),
      ("```".toList)] = Except.ok ([([] : List Char)],
      [(0, [("```py".toList), ("x = 1".toList), ("```".toList)])]) ∧
    ([(0, [("```py".toList), ("x = 1".toList), ("```".toList)])].map
      Prod.snd) =
      ((fenceSpans [("```py".toList), ("x = 1".toList),
        ("```".toList)]).filter
          (keepSpan [("```py".toList), ("x = 1".toList), ("```".toList)])).map
        (blockOf [("```py".toList), ("x = 1".toList), ("```".toList)]) :=
  ⟨by rfl,
    extract_blocks_conversion_characterization
      [("```py".toList), ("x = 1".toList), ("```".toList)]
      [([] : List Char)]
      [(0, [("```py".toList), ("x = 1".toList), ("```".toList)])]
      (by rfl)⟩

/-- While inside a block, a run over lines none of which is a bare closing
fence (every line matching the close token also matches the open token)
and none of which raises a directive error, emits nothing: the output
skeleton and the queued blocks stay as they were. -/
lemma extractGo_in_block_no_emit (lines : List (List Char)) :
    ∀ (rest : List (List Char)) (i : Nat) (s : ExtSt),
    s.in_block = true →
    (∀ l ∈ rest, hasSub closeTok l = true → hasSub openTok l = true) →
    (∀ l ∈ rest, dirParses l = true) →
    ∃ sf, extractGo lines i rest s = Except.ok sf ∧
      sf.new_lines = s.new_lines ∧ sf.to_transform = s.to_transform := by
  intro rest
  induction rest with
  | nil =>
    intro i s hin hc hd
    exact ⟨s, rfl, rfl, rfl⟩
  | cons l rest2 ih =>
    intro i s hin hc hd
    have hdl : dirParses l = true := hd l (List.mem_cons_self l rest2)
    cases hdir : get_pytabs_directive l with
    | error e =>
      rw [dirParses, hdir] at hdl
      exact Bool.noConfusion hdl
    | ok d =>
      have hc2 : ∀ l2 ∈ rest2, hasSub closeTok l2 = true →
          hasSub openTok l2 = true :=
        fun l2 hl2 => hc l2 (List.mem_cons_of_mem l hl2)
      have hd2 : ∀ l2 ∈ rest2, dirParses l2 = true :=
        fun l2 hl2 => hd l2 (List.mem_cons_of_mem l hl2)
      simp only [extractGo, extractStep, hdir]
      by_cases hopen : hasSub openTok l = true
      · simp only [if_pos hopen]
        exact ih (i + 1)
          (ExtSt.mk true (applyDir d s.enabled) i s.new_lines s.to_transform)
          rfl hc2 hd2
      · simp only [if_neg hopen]
        have hclose : ¬ hasSub closeTok l = true := by
          intro hcl
          exact hopen (hc l (List.mem_cons_self l rest2) hcl)
        simp only [if_neg hclose]
        have hcomm : ¬ (s.in_block = false ∧ d.isSome = false) := by
          intro hco
          rw [hin] at hco
          exact Bool.noConfusion hco.1
        simp only [if_neg hcomm]
        exact ih (i + 1)
          (ExtSt.mk s.in_block (applyDir d s.enabled) s.start
            s.new_lines s.to_transform)
          hin hc2 hd2

/-- Splitting the extraction loop over an append. -/
lemma extractGo_append (lines : List (List Char)) (xs ys : List (List Char)) :
    ∀ (i : Nat) (s : ExtSt),
    extractGo lines i (xs ++ ys) s =
      (match extractGo lines i xs s with
       | Except.error e => Except.error e
       | Except.ok s2 => extractGo lines (i + xs.length) ys s2) := by
  induction xs with
  | nil =>
    intro i s
    simp [extractGo]
  | cons x xs2 ih =>
    intro i s
    simp only [List.cons_append, extractGo]
    cases hst : extractStep lines i x s with
    | error e => rfl
    | ok s2 =>
      show extractGo lines (i + 1) (xs2 ++ ys) s2 =
        (match extractGo lines (i + 1) xs2 s2 with
         | Except.error e => Except.error e
         | Except.ok s3 => extractGo lines (i + (x :: xs2).length) ys s3)
      rw [ih (i + 1) s2]
      have harith : i + 1 + xs2.length = i + (x :: xs2).length := by
        simp only [List.length_cons]
        omega
      cases extractGo lines (i + 1) xs2 s2 with
      | error e => rfl
      | ok s3 =>
        show extractGo lines (i + 1 + xs2.length) ys s3 =
          extractGo lines (i + (x :: xs2).length) ys s3
        rw [harith]

/-- C10: in a document where a fence-open line is matched at index j and no
bare closing fence line follows it before the end of the document (every
later line containing the close token also contains the open token and so
re-opens), and directive parsing succeeds on every line, extraction
succeeds and returns exactly the outputs accumulated before the fence-open
line: the fence-open line and every subsequent line are silently omitted
from the returned skeleton, no block is extracted for them, and no error
is reported. -/
theorem extract_unterminated_block_dropped
    (lines : List (List Char)) (j : Nat) (l0 : List Char)
    (tl : List (List Char)) (smid : ExtSt)
    (hdrop : lines.drop j = l0 :: tl)
    (hopen : hasSub openTok l0 = true)
    (hnoclose : ∀ l ∈ tl, hasSub closeTok l = true → hasSub openTok l = true)
    (hdirs : ∀ l ∈ lines, dirParses l = true)
    (hmid : extractGo lines 0 (lines.take j) extInit = Except.ok smid) :
    extract_code_blocks lines =
      Except.ok (smid.new_lines, smid.to_transform) := by
  have hlen : (lines.take j).length = j := by
    have hne : lines.drop j ≠ [] := by rw [hdrop]; simp
    have hj : j < lines.length := by
      by_contra hge
      push_neg at hge
      rw [List.drop_eq_nil_of_le hge] at hdrop
      exact List.noConfusion hdrop
    simp only [List.length_take]
    omega
  have hl0mem : l0 ∈ lines := by
    refine List.drop_subset j lines ?_
    rw [hdrop]
    exact List.mem_cons_self _ _
  have hd0 : dirParses l0 = true := hdirs l0 hl0mem
  cases hdir0 : get_pytabs_directive l0 with
  | error e =>
    rw [dirParses, hdir0] at hd0
    exact Bool.noConfusion hd0
  | ok d =>
    obtain ⟨sf, hsf, hnl2, htt2⟩ := extractGo_in_block_no_emit lines tl (j + 1)
      (ExtSt.mk true (applyDir d smid.enabled) j smid.new_lines
        smid.to_transform)
      rfl hnoclose
      (fun l hl => hdirs l (List.drop_subset j lines (by
        rw [hdrop]
        exact List.mem_cons_of_mem _ hl)))
    have hfull : extractGo lines 0 lines extInit = Except.ok sf := by
      have h1 : extractGo lines 0 lines extInit =
          extractGo lines 0 (lines.take j ++ lines.drop j) extInit := by
        rw [List.take_append_drop]
      rw [h1, extractGo_append lines (lines.take j) (lines.drop j) 0 extInit]
      simp only [hmid]
      rw [hlen, hdrop]
      simp only [Nat.zero_add]
      simp only [extractGo, extractStep, hdir0, if_pos hopen]
      exact hsf
    unfold extract_code_blocks
    rw [hfull]
    show Except.ok (sf.new_lines, sf.to_transform) =
      Except.ok (smid.new_lines, smid.to_transform)
    rw [hnl2, htt2]

/-- Witness: C10 applied to the document [plain line, unterminated opening
fence, plain line]: the output skeleton holds only the first line and no
block is queued. -/
theorem extract_unterminated_block_dropped_witness :
    (["text".toList, "```py".toList, "more".toList].drop 1 =
      ("```py".toList) :: [("more".toList)]) ∧
    hasSub openTok ("```py".toList) = true ∧
    extract_code_blocks ["text".toList, "```py".toList, "more".toList] =
      Except.ok ([("text".toList)], []) :=
  ⟨by decide, by decide,
    extract_unterminated_block_dropped
      ["text".toList, "```py".toList, "more".toList] 1
      ("```py".toList) [("more".toList)]
      (ExtSt.mk false true 0 [("text".toList)] [])
      (by decide) (by decide) (by decide) (by decide) (by rfl)⟩
